import Mathlib

/-
  Verification development for dirtree.c: a program that builds an in-memory
  tree from a filesystem walk, linearizes it in level order with a FIFO queue,
  prints one line per node, and releases the tree.

  The embedding below translates the C data structures and functions:
    struct TreeNode / struct LList  -> TreeNode (children as an ordered list;
                                       the nextSibling chain is the list order)
    struct Queue / struct QNode     -> Queue (a list, firstOut at the head) and
                                       QNode (dataSource plus the queuePrev
                                       reference of a returned cell)
    enQueue / deQueue               -> enQueue / deQueue
    createPrintQueue                -> createPrintQueue (loop cpqLoop; the inner
                                       while over children is enQueueList)
    printPrintQueue                 -> printPrintQueue (loop printLoop)
    chopTree                        -> chopTree
    treePopulator                   -> treePopulator / goEntries, over an
                                       explicit filesystem interface FS
                                       (opendir+readdir becomes FS.list, the
                                       stat S_ISDIR test becomes FS.classify)
  Machine ints are modelled as Int; the C recursion over the filesystem is
  unbounded, so treePopulator takes explicit fuel.
-/

namespace DirTree

/-- struct TreeNode: fileName, level and the ordered child list (struct LList
with head and tail; the nextSibling chain is represented by list order). -/
inductive TreeNode : Type where
  | mk : String → Int → List TreeNode → TreeNode

/-- Accessor for the fileName field. -/
def TreeNode.fileName : TreeNode → String
  | .mk n _ _ => n

/-- Accessor for the level field. -/
def TreeNode.level : TreeNode → Int
  | .mk _ l _ => l

/-- Accessor for the children list. -/
def TreeNode.children : TreeNode → List TreeNode
  | .mk _ _ cs => cs

mutual

/-- Number of nodes in a subtree. -/
def TreeNode.size : TreeNode → Nat
  | .mk _ _ cs => 1 + sizeL cs

/-- Number of nodes in a forest. -/
def sizeL : List TreeNode → Nat
  | [] => 0
  | t :: ts => TreeNode.size t + sizeL ts

end

mutual

/-- All nodes of a subtree, root first (the subtree rooted at the argument). -/
def allNodes : TreeNode → List TreeNode
  | .mk n l cs => .mk n l cs :: allNodesL cs

/-- All nodes of a forest. -/
def allNodesL : List TreeNode → List TreeNode
  | [] => []
  | t :: ts => allNodes t ++ allNodesL ts

end

/-- struct QNode, as returned by deQueue: the dataSource pointer (null is
none) and the queuePrev pointer, represented by the wrapped tree node of the
cell it references (null is none). -/
structure QNode : Type where
  dataSource : Option TreeNode
  queuePrev : Option TreeNode

/-- struct Queue: the chain of cells from firstOut to lastIn, represented as
the list of wrapped tree nodes with firstOut at the head. -/
abbrev Queue : Type := List TreeNode

/-- createQueue: both pointers null, i.e. the empty queue. -/
def createQueue : Queue := []

/-- createTreeNode: fresh node with a copy of the name, the given level and an
empty child list (createLList). -/
def createTreeNode (name : String) (lvl : Int) : TreeNode := .mk name lvl []

/-- appendChild: graft the child at the tail of the parent child list. -/
def appendChild (parent child : TreeNode) : TreeNode :=
  .mk parent.fileName parent.level (parent.children ++ [child])

/-- enQueue: wrap the tree node in a fresh cell (createQNode) and attach it at
the lastIn end; for an empty queue the cell becomes both firstOut and lastIn. -/
def enQueue (queue : Queue) (tNode : TreeNode) : Queue := queue ++ [tNode]

/-- deQueue, all three branches of the C function.  Empty queue: allocate and
return a dummy cell with null dataSource and null queuePrev, leaving the queue
untouched.  Otherwise detach and return the firstOut cell; its queuePrev field
is not cleared, so it still references the next cell when one exists (for the
final item that field is already null). -/
def deQueue : Queue → QNode × Queue
  | [] => (⟨none, none⟩, [])
  | t :: ts => (⟨some t, ts.head?⟩, ts)

/-- The inner while loop of createPrintQueue: enQueue every node of a sibling
chain in order. -/
def enQueueList (queue : Queue) : List TreeNode → Queue
  | [] => queue
  | t :: ts => enQueueList (enQueue queue t) ts

/-- Repeat deQueue a given number of times, collecting the returned cells. -/
def drainN : Nat → Queue → List QNode
  | 0, _ => []
  | n + 1, q => (deQueue q).1 :: drainN n (deQueue q).2

/-- The while loop of createPrintQueue.  treeClimber is enqueued on the print
queue, its children are enqueued on the toDo queue, and the next climber is
dequeued from the toDo queue; a dequeued dummy cell (null dataSource, i.e. the
toDo queue was empty) ends the loop. -/
def cpqLoop (treeClimber : TreeNode) (toDoQueue printQueue : Queue) : Queue :=
  match h : deQueue (enQueueList toDoQueue treeClimber.children) with
  | (⟨none, _⟩, _) => enQueue printQueue treeClimber
  | (⟨some next, _⟩, rest) => cpqLoop next rest (enQueue printQueue treeClimber)
termination_by treeClimber.size + sizeL toDoQueue
decreasing_by
  have hel : ∀ (cs : List TreeNode) (q : Queue), enQueueList q cs = q ++ cs := by
    intro cs
    induction cs with
    | nil => intro q; simp [enQueueList]
    | cons c cs ih => intro q; simp [enQueueList, enQueue, ih]
  have hsz : ∀ (a b : List TreeNode), sizeL (a ++ b) = sizeL a + sizeL b := by
    intro a b
    induction a with
    | nil => simp [sizeL]
    | cons x xs ih => simp [sizeL, ih]; omega
  have hcons : enQueueList toDoQueue treeClimber.children = next :: rest := by
    rcases hq : enQueueList toDoQueue treeClimber.children with _ | ⟨x, xs⟩
    · rw [hq] at h; simp [deQueue] at h
    · rw [hq] at h; simp [deQueue] at h; simp [h.1, h.2]
  rw [hel] at hcons
  have h1 : sizeL (toDoQueue ++ treeClimber.children) = sizeL (next :: rest) := by
    rw [hcons]
  rw [hsz] at h1
  have h2 : sizeL (next :: rest) = TreeNode.size next + sizeL rest := by
    simp [sizeL]
  have h3 : TreeNode.size treeClimber = 1 + sizeL treeClimber.children := by
    cases treeClimber with
    | mk n l cs => simp [TreeNode.size, TreeNode.children]
  omega

/-- createPrintQueue: run the breadth-first loop starting from the root with
fresh print and toDo queues. -/
def createPrintQueue (root : TreeNode) : Queue :=
  cpqLoop root createQueue createQueue

/-- One printed line, modelling the printf format string of printPrintQueue:
level, colon, order, colon, fileName, newline. -/
def mkLine (lvl order : Int) (name : String) : String :=
  toString lvl ++ ":" ++ toString order ++ ":" ++ name ++ "\n"

/-- The do-while loop of printPrintQueue, with the order and prevLevel
counters.  Each pass dequeues the firstOut cell (head of the list), resets
order to zero when the level differs from prevLevel, increments order, prints
the line and frees the cell; the loop continues while the queue is still
nonempty (lastIn not null).  On an empty queue the dequeued dummy cell has a
null dataSource and the C code dereferences it, which is undefined behavior:
that case is modelled as none. -/
def printLoop : Queue → Int → Int → Option (List String)
  | [], _, _ => none
  | t :: ts, order, prevLevel =>
    let ord : Int := if t.level != prevLevel then 1 else order + 1
    let line := mkLine t.level ord t.fileName
    match ts with
    | [] => some [line]
    | _ :: _ => (printLoop ts ord t.level).map (fun ls => line :: ls)

/-- printPrintQueue: run the printing loop with order and prevLevel both
starting at zero; the result is the list of printed lines. -/
def printPrintQueue (printQueue : Queue) : Option (List String) :=
  printLoop printQueue 0 0

/-- chopTree.  The C function receives one tree node; its first argument here
is that node and the second is its nextSibling chain (the siblings that follow
it in its parent child list).  Depth-first recursion into the head of the
child list, then the breadth recursion along the sibling chain, then the node
itself is freed (its LList struct, its fileName string and the node); the
result is the list of nodes in the order their free calls happen. -/
def chopTree : TreeNode → List TreeNode → List TreeNode
  | .mk name lvl children, sibs =>
    (match children with
     | [] => []
     | c :: cs => chopTree c cs)
    ++
    (match sibs with
     | [] => []
     | s :: ss => chopTree s ss)
    ++ [.mk name lvl children]
termination_by t sibs => TreeNode.size t + sizeL sibs
decreasing_by
  · simp [TreeNode.size, sizeL]
    omega
  · have hpos : ∀ u : TreeNode, 1 ≤ TreeNode.size u := by
      intro u
      cases u with
      | mk n l cs => simp [TreeNode.size]
    have := hpos (.mk name lvl children)
    simp [sizeL]
    omega

/-- The external collaborators of the tree builder.  list models
opendir+readdir (none is an opendir failure); classify models the stat
S_ISDIR test (none is a stat failure); junkIsDir is the value the S_ISDIR
test reads from the uninitialized stat buffer when stat fails, since the C
code never checks the return value of stat. -/
structure FS : Type where
  list : String → Option (List String)
  classify : String → Option Bool
  junkIsDir : Bool

/-- The skip test of treePopulator: strcmp with the dot entry, strcmp with the
dot-dot entry, or strncmp of the first character with a dot (the one-byte
strncmp compares at most the first character, so it is the comparison of the
one-character prefix with a dot). -/
def hiddenCheck (name : String) : Bool :=
  name == "." || name == ".." || name.data.take 1 == ['.']

/-- The childPath computation of treePopulator: strcpy of the parent path,
strcat of a slash, strcat of the entry name.  The C code writes this into a
fixed char[256] buffer with no bound check of any kind. -/
def childPathOf (parentPath name : String) : String :=
  parentPath ++ "/" ++ name

/-- The readdir while loop of treePopulator over the listed entry names.
recurse is the recursive treePopulator call made on the tail child when the
entry is classified a directory.  A failed classification leaves the stat
buffer uninitialized and the C code branches on it anyway; getD junkIsDir
models that read.  No diagnostic is printed on a failed classification. -/
def goEntries (fs : FS) (recurse : TreeNode → Option TreeNode) :
    List String → TreeNode → Option TreeNode
  | [], parent => some parent
  | name :: rest, parent =>
    if hiddenCheck name then goEntries fs recurse rest parent
    else
      let childPath := childPathOf parent.fileName name
      let childNode := createTreeNode childPath (parent.level + 1)
      if (fs.classify childPath).getD fs.junkIsDir then
        match recurse childNode with
        | none => none
        | some populated => goEntries fs recurse rest (appendChild parent populated)
      else goEntries fs recurse rest (appendChild parent childNode)

/-- treePopulator.  On an opendir failure the C code prints a diagnostic and
then calls readdir on the null stream, which is undefined behavior (a crash):
that branch is modelled as none.  The C recursion over the filesystem has no
termination argument of its own, so the model takes explicit fuel; exhausted
fuel is also none. -/
def treePopulator (fs : FS) : Nat → TreeNode → Option TreeNode
  | 0, _ => none
  | fuel + 1, parent =>
    match fs.list parent.fileName with
    | none => none
    | some entries => goEntries fs (treePopulator fs fuel) entries parent

/-
  Specification-side definitions, written from the wording of the spec, to be
  compared with the translated code above.
-/

/-- Spec side: the nodes at a given depth below (and including) a node, in
discovery order; depth 0 is the node itself, depth d+1 collects depth-d nodes
of the children in child-list order. -/
def nodesAtDepth : Nat → TreeNode → List TreeNode
  | 0, t => [t]
  | d + 1, t => ((t.children.map (nodesAtDepth d)).flatten)

/-- Spec side: the successive depth slices of a forest; slice 0 is the forest
itself, slice d+1 is slice d of the forest of all children. -/
def flevels : List TreeNode → List (List TreeNode)
  | [] => []
  | t :: ts => (t :: ts) :: flevels (((t :: ts).map TreeNode.children).flatten)
termination_by f => sizeL f
decreasing_by
  have hsz : ∀ (a b : List TreeNode), sizeL (a ++ b) = sizeL a + sizeL b := by
    intro a b
    induction a with
    | nil => simp [sizeL]
    | cons y ys ih2 => simp [sizeL, ih2]; omega
  have hj : ∀ g : List TreeNode, sizeL ((g.map TreeNode.children).flatten) + g.length = sizeL g := by
    intro g
    induction g with
    | nil => simp [sizeL]
    | cons x xs ih =>
      cases x with
      | mk n l cs =>
        simp only [List.map_cons, List.flatten_cons, hsz, List.length_cons, sizeL,
          TreeNode.size, TreeNode.children]
        omega
  have h1 := hj (t :: ts)
  simp only [List.length_cons] at h1
  omega

/-- Spec side: level-order traversal of a forest treated as one queue (pop the
head, push its children at the back).  Used as the bridge between the code
loop cpqLoop and the depth slices flevels. -/
def bfsQueue : List TreeNode → List TreeNode
  | [] => []
  | t :: ts => t :: bfsQueue (ts ++ t.children)
termination_by f => sizeL f
decreasing_by
  have hsz : ∀ (a b : List TreeNode), sizeL (a ++ b) = sizeL a + sizeL b := by
    intro a b
    induction a with
    | nil => simp [sizeL]
    | cons y ys ih2 => simp [sizeL, ih2]; omega
  cases t with
  | mk n l cs => simp [hsz, sizeL, TreeNode.size, TreeNode.children]; omega

/-- Spec side: the entry name begins with the dot character. -/
def beginsWithDot (nm : String) : Prop := nm.data.head? = some '.'

mutual

/-- Every child edge of the tree carries a non-hidden entry name: each child
path is its parent path, a slash and a name that does not start with a dot. -/
def hiddenFree : TreeNode → Prop
  | .mk path _ cs =>
    (∀ c ∈ cs, ∃ nm : String, ¬ beginsWithDot nm ∧
      TreeNode.fileName c = childPathOf path nm) ∧ hiddenFreeL cs

/-- hiddenFree for every tree of a forest. -/
def hiddenFreeL : List TreeNode → Prop
  | [] => True
  | c :: cs => hiddenFree c ∧ hiddenFreeL cs

end

mutual

/-- Every child level in the tree is its parent level plus one. -/
def levelsOK : TreeNode → Prop
  | .mk _ lvl cs => (∀ c ∈ cs, TreeNode.level c = lvl + 1) ∧ levelsOKL cs

/-- levelsOK for every tree of a forest. -/
def levelsOKL : List TreeNode → Prop
  | [] => True
  | c :: cs => levelsOK c ∧ levelsOKL cs

end

/-
  Concrete fixtures used by the witness and counterexample theorems.
-/

/-- A filesystem with a single empty directory at the root path. -/
def fsEmpty : FS := ⟨fun _ => some [], fun _ => some false, false⟩

/-- A filesystem whose root directory holds a hidden entry and one regular
file. -/
def fsHidden : FS :=
  ⟨fun p => if p == "/r" then some [".secret", "a.txt"] else some [],
   fun _ => some false, false⟩

/-- A filesystem whose root directory cannot be listed (opendir fails). -/
def fsDenied : FS := ⟨fun _ => none, fun _ => some false, false⟩

/-- A filesystem where the classification of the entry a of the root fails
(stat failure) while the uninitialized stat buffer happens to read as a
directory; the entry a is itself listable and holds the entry b. -/
def fsStatFail : FS :=
  ⟨fun p => if p == "/r" then some ["a"] else if p == "/r/a" then some ["b"] else some [],
   fun p => if p == "/r/a" then none else some false,
   true⟩

/-- A 250-character directory path. -/
def longPath : String := String.mk (List.replicate 250 'a')

/-- A filesystem whose root directory holds one ten-character entry name, so
the computed child path has 261 characters and overruns a char[256] buffer. -/
def fsLong : FS :=
  ⟨fun p => if p == longPath then some ["0123456789"] else some [],
   fun _ => some false, false⟩

/-- A three-node print queue: a root at level 1 with two entries at level 2,
used to instantiate the printing theorem. -/
def demoQueue : Queue :=
  [.mk "/r" 1 [.mk "/r/a" 2 [], .mk "/r/b" 2 []], .mk "/r/a" 2 [], .mk "/r/b" 2 []]

/-
  Helper lemmas.
-/

theorem enQueueList_eq_append (cs : List TreeNode) (q : Queue) :
    enQueueList q cs = q ++ cs := by
  induction cs generalizing q with
  | nil => simp [enQueueList]
  | cons c cs ih => simp [enQueueList, enQueue, ih]

theorem sizeL_append (a b : List TreeNode) :
    sizeL (a ++ b) = sizeL a + sizeL b := by
  induction a with
  | nil => simp [sizeL]
  | cons x xs ih => simp [sizeL, ih]; omega

theorem allNodesL_append (a b : List TreeNode) :
    allNodesL (a ++ b) = allNodesL a ++ allNodesL b := by
  induction a with
  | nil => simp [allNodesL]
  | cons t ts ih => simp [allNodesL, ih]

theorem drainN_map_dataSource (q : Queue) :
    (drainN q.length q).map QNode.dataSource = q.map some := by
  induction q with
  | nil => rfl
  | cons t ts ih => simpa [drainN, deQueue] using ih

/-
  Claim theorems: the FIFO queue (C9, C10).
-/

/-- C9: the queue is first-in-first-out.  For every sequence of enQueue calls
on a fresh queue, the successive deQueue calls return cells wrapping exactly
the enqueued tree nodes in enqueue order. -/
theorem enQueue_deQueue_fifo (xs : List TreeNode) :
    (drainN xs.length (enQueueList createQueue xs)).map QNode.dataSource = xs.map some := by
  rw [enQueueList_eq_append]
  simpa [createQueue] using drainN_map_dataSource xs

/-- C10: deQueue of an empty queue does not fail and does not modify the
queue: it returns a fresh cell whose dataSource and queuePrev are both null,
and a null dataSource in the returned cell happens exactly for the empty
queue, so callers can distinguish exhaustion by it. -/
theorem deQueue_empty_queue :
    deQueue createQueue = (⟨none, none⟩, createQueue) ∧
    ∀ q : Queue, (deQueue q).1.dataSource = none ↔ q = createQueue := by
  refine ⟨rfl, ?_⟩
  intro q
  cases q with
  | nil => simp [deQueue, createQueue]
  | cons t ts => simp [deQueue, createQueue]

/-
  Claim theorems: the error paths of treePopulator (C5, C6, C7).
-/

/-- C5: listing failure.  On a directory whose listing fails, treePopulator
does not continue with zero children: after printing its diagnostic the C
code calls readdir on the null directory stream, which is undefined behavior
(modelled as none), so no node for the path ever reaches the output. -/
theorem opendir_failure_crashes :
    FS.list fsDenied "/locked" = none ∧
    treePopulator fsDenied 5 (createTreeNode "/locked" 1) = none :=
  ⟨rfl, rfl⟩

/-- C6: classification failure.  The classification of the entry a of the
root fails, yet the resulting tree gives that entry a child: since the C code
ignores the result of stat and branches on the uninitialized stat buffer, an
entry whose classification fails can be recursed into instead of being kept a
leaf, and no diagnostic is issued. -/
theorem classify_failure_recursed :
    FS.classify fsStatFail (childPathOf "/r" "a") = none ∧
    treePopulator fsStatFail 2 (createTreeNode "/r" 1) =
      some (.mk "/r" 1 [.mk "/r/a" 2 [.mk "/r/a/b" 3 []]]) :=
  ⟨rfl, rfl⟩

set_option maxRecDepth 8192 in
/-- C7: over-long paths.  A computed child path of 261 characters exceeds the
256-byte buffer of the C code, yet the builder performs no length check of
any kind and succeeds silently: there is no explicit failure (in the C
program the strcat calls write past the fixed buffer). -/
theorem long_path_no_explicit_failure :
    (childPathOf longPath "0123456789").length = 261 ∧
    treePopulator fsLong 1 (createTreeNode longPath 1) =
      some (.mk longPath 1 [.mk (childPathOf longPath "0123456789") 2 []]) :=
  ⟨rfl, rfl⟩

/-
  chopTree (C8).
-/

theorem chopTree_perm_aux :
    ∀ (n : Nat) (t : TreeNode) (sibs : List TreeNode),
      TreeNode.size t + sizeL sibs ≤ n →
      (chopTree t sibs).Perm (allNodes t ++ allNodesL sibs) := by
  intro n
  induction n with
  | zero =>
    intro t sibs hle
    exfalso
    cases t with
    | mk name lvl cs =>
      simp [TreeNode.size] at hle
  | succ n ih =>
    intro t sibs hle
    cases t with
    | mk name lvl children =>
      have hsize : TreeNode.size (TreeNode.mk name lvl children) = 1 + sizeL children := rfl
      have hch : (match children with
          | [] => ([] : List TreeNode)
          | c :: cs => chopTree c cs).Perm (allNodesL children) := by
        cases children with
        | nil => simp [allNodesL]
        | cons c cs =>
          have hle2 : TreeNode.size c + sizeL cs ≤ n := by
            rw [hsize] at hle
            simp [sizeL] at hle
            omega
          simpa [allNodesL] using ih c cs hle2
      have hsb : (match sibs with
          | [] => ([] : List TreeNode)
          | s :: ss => chopTree s ss).Perm (allNodesL sibs) := by
        cases sibs with
        | nil => simp [allNodesL]
        | cons s ss =>
          have hle2 : TreeNode.size s + sizeL ss ≤ n := by
            rw [hsize] at hle
            simp [sizeL] at hle
            omega
          simpa [allNodesL] using ih s ss hle2
      have key : chopTree (.mk name lvl children) sibs =
          ((match children with
            | [] => ([] : List TreeNode)
            | c :: cs => chopTree c cs) ++
           (match sibs with
            | [] => ([] : List TreeNode)
            | s :: ss => chopTree s ss)) ++ [.mk name lvl children] := by
        rw [chopTree.eq_def]
      rw [key]
      refine (((hch.append hsb).append
        (List.Perm.refl [TreeNode.mk name lvl children])).trans ?_)
      refine List.perm_append_comm.trans ?_
      simp [allNodes]

theorem chopTree_perm (t : TreeNode) (sibs : List TreeNode) :
    (chopTree t sibs).Perm (allNodes t ++ allNodesL sibs) :=
  chopTree_perm_aux (TreeNode.size t + sizeL sibs) t sibs (le_refl _)

/-- C8: chopTree releases every node of the tree (and of the sibling chain it
is asked to release) exactly once: the list of freed nodes is a permutation
of the nodes of the subtree plus those of the trailing sibling subtrees, and
a leaf with no siblings is the base case, freed alone. -/
theorem chopTree_releases_each_node_once :
    (∀ (t : TreeNode) (sibs : List TreeNode),
      (chopTree t sibs).Perm (allNodes t ++ allNodesL sibs)) ∧
    (∀ (name : String) (lvl : Int),
      chopTree (.mk name lvl []) [] = [.mk name lvl []]) := by
  refine ⟨chopTree_perm, ?_⟩
  intro name lvl
  simp [chopTree]


/-
  The tree builder invariants (C3, C4).
-/

theorem hidden_equiv (nm : String) : hiddenCheck nm = true ↔ beginsWithDot nm := by
  cases nm with
  | mk d =>
    cases d with
    | nil =>
      constructor
      · intro h
        exact absurd h (by decide)
      · intro h
        simp [beginsWithDot] at h
    | cons c rest =>
      simp only [hiddenCheck, Bool.or_eq_true, beq_iff_eq, beginsWithDot,
        List.head?_cons, Option.some.injEq]
      constructor
      · rintro ((h | h) | h)
        · have hd : c :: rest = ['.'] := congrArg String.data h
          simp at hd
          exact hd.1
        · have hd : c :: rest = ['.', '.'] := congrArg String.data h
          simp at hd
          exact hd.1
        · simp only [List.take_succ_cons, List.take_zero] at h
          simpa using h
      · intro h
        right
        simp [List.take_succ_cons, List.take_zero, h]

theorem hiddenFreeL_append (a b : List TreeNode) :
    hiddenFreeL (a ++ b) ↔ hiddenFreeL a ∧ hiddenFreeL b := by
  induction a with
  | nil => simp [hiddenFreeL]
  | cons c cs ih => simp [hiddenFreeL, ih, and_assoc]

theorem levelsOKL_append (a b : List TreeNode) :
    levelsOKL (a ++ b) ↔ levelsOKL a ∧ levelsOKL b := by
  induction a with
  | nil => simp [levelsOKL]
  | cons c cs ih => simp [levelsOKL, ih, and_assoc]

theorem hiddenFree_appendChild (p c : TreeNode) (nm : String)
    (hnm : ¬ beginsWithDot nm)
    (hfn : TreeNode.fileName c = childPathOf (TreeNode.fileName p) nm)
    (hp : hiddenFree p) (hc : hiddenFree c) :
    hiddenFree (appendChild p c) := by
  cases p with
  | mk path lvl cs =>
    obtain ⟨h1, h2⟩ := hp
    refine ⟨?_, ?_⟩
    · intro x hx
      rcases List.mem_append.mp hx with hx | hx
      · exact h1 x hx
      · have hxc : x = c := List.mem_singleton.mp hx
        subst hxc
        exact ⟨nm, hnm, by simpa [TreeNode.fileName] using hfn⟩
    · exact (hiddenFreeL_append cs [c]).mpr ⟨h2, hc, trivial⟩

theorem levelsOK_appendChild (p c : TreeNode)
    (hlv : TreeNode.level c = TreeNode.level p + 1)
    (hp : levelsOK p) (hc : levelsOK c) :
    levelsOK (appendChild p c) := by
  cases p with
  | mk path lvl cs =>
    obtain ⟨h1, h2⟩ := hp
    refine ⟨?_, ?_⟩
    · intro x hx
      rcases List.mem_append.mp hx with hx | hx
      · exact h1 x hx
      · have hxc : x = c := List.mem_singleton.mp hx
        subst hxc
        simpa [TreeNode.level] using hlv
    · exact (levelsOKL_append cs [c]).mpr ⟨h2, hc, trivial⟩

theorem goEntries_inv (fs : FS) (recurse : TreeNode → Option TreeNode)
    (hrec : ∀ p u, recurse p = some u →
      TreeNode.fileName u = TreeNode.fileName p ∧
      TreeNode.level u = TreeNode.level p ∧
      (hiddenFree p → hiddenFree u) ∧ (levelsOK p → levelsOK u)) :
    ∀ (entries : List String) (parent t : TreeNode),
      goEntries fs recurse entries parent = some t →
      TreeNode.fileName t = TreeNode.fileName parent ∧
      TreeNode.level t = TreeNode.level parent ∧
      (hiddenFree parent → hiddenFree t) ∧ (levelsOK parent → levelsOK t) := by
  intro entries
  induction entries with
  | nil =>
    intro parent t h
    simp [goEntries] at h
    subst h
    exact ⟨rfl, rfl, id, id⟩
  | cons name rest ih =>
    intro parent t h
    simp only [goEntries] at h
    split at h
    · exact ih parent t h
    · rename_i hname
      have hnothidden : ¬ beginsWithDot name := fun hb =>
        hname ((hidden_equiv name).mpr hb)
      split at h
      · rcases hr : recurse (createTreeNode
            (childPathOf (TreeNode.fileName parent) name)
            (TreeNode.level parent + 1)) with _ | populated
        · rw [hr] at h
          simp at h
        · rw [hr] at h
          obtain ⟨hu1, hu2, hu3, hu4⟩ := hrec _ _ hr
          obtain ⟨ht1, ht2, ht3, ht4⟩ := ih (appendChild parent populated) t h
          have hfn : TreeNode.fileName (appendChild parent populated) =
              TreeNode.fileName parent := by
            simp [appendChild, TreeNode.fileName]
          have hlv : TreeNode.level (appendChild parent populated) =
              TreeNode.level parent := by
            simp [appendChild, TreeNode.level]
          refine ⟨ht1.trans hfn, ht2.trans hlv, ?_, ?_⟩
          · intro hp
            refine ht3 (hiddenFree_appendChild parent populated name hnothidden ?_ hp ?_)
            · rw [hu1]
              simp [createTreeNode, TreeNode.fileName]
            · exact hu3 (by simp [createTreeNode, hiddenFree, hiddenFreeL])
          · intro hp
            refine ht4 (levelsOK_appendChild parent populated ?_ hp ?_)
            · rw [hu2]
              simp [createTreeNode, TreeNode.level]
            · exact hu4 (by simp [createTreeNode, levelsOK, levelsOKL])
      · obtain ⟨ht1, ht2, ht3, ht4⟩ := ih (appendChild parent
          (createTreeNode (childPathOf (TreeNode.fileName parent) name)
            (TreeNode.level parent + 1))) t h
        have hfn : TreeNode.fileName (appendChild parent
            (createTreeNode (childPathOf (TreeNode.fileName parent) name)
              (TreeNode.level parent + 1))) = TreeNode.fileName parent := by
          simp [appendChild, TreeNode.fileName]
        have hlv : TreeNode.level (appendChild parent
            (createTreeNode (childPathOf (TreeNode.fileName parent) name)
              (TreeNode.level parent + 1))) = TreeNode.level parent := by
          simp [appendChild, TreeNode.level]
        refine ⟨ht1.trans hfn, ht2.trans hlv, ?_, ?_⟩
        · intro hp
          refine ht3 (hiddenFree_appendChild parent _ name hnothidden ?_ hp ?_)
          · simp [createTreeNode, TreeNode.fileName]
          · simp [createTreeNode, hiddenFree, hiddenFreeL]
        · intro hp
          refine ht4 (levelsOK_appendChild parent _ ?_ hp ?_)
          · simp [createTreeNode, TreeNode.level]
          · simp [createTreeNode, levelsOK, levelsOKL]

theorem treePopulator_inv (fs : FS) :
    ∀ (fuel : Nat) (parent t : TreeNode),
      treePopulator fs fuel parent = some t →
      TreeNode.fileName t = TreeNode.fileName parent ∧
      TreeNode.level t = TreeNode.level parent ∧
      (hiddenFree parent → hiddenFree t) ∧ (levelsOK parent → levelsOK t) := by
  intro fuel
  induction fuel with
  | zero =>
    intro p t h
    simp [treePopulator] at h
  | succ fuel ih =>
    intro p t h
    rw [treePopulator] at h
    rcases hl : fs.list (TreeNode.fileName p) with _ | entries
    · rw [hl] at h
      simp at h
    · rw [hl] at h
      exact goEntries_inv fs (treePopulator fs fuel) ih entries p t h

/-- C4: in every tree the builder produces from the root node that main
creates at level 1, the root has level 1 and every child level in the tree is
its parent level plus one. -/
theorem builder_depth_invariant (fs : FS) (startPath : String) (fuel : Nat)
    (t : TreeNode)
    (h : treePopulator fs fuel (createTreeNode startPath 1) = some t) :
    TreeNode.level t = 1 ∧ levelsOK t := by
  obtain ⟨-, hlv, -, hok⟩ := treePopulator_inv fs fuel _ t h
  refine ⟨by simpa [createTreeNode, TreeNode.level] using hlv, ?_⟩
  exact hok (by simp [createTreeNode, levelsOK, levelsOKL])

/-- Witness for C4 at a concrete filesystem: an empty directory gives back
just the root, at level 1 and trivially satisfying the level invariant. -/
theorem builder_depth_invariant_witness :
    TreeNode.level (createTreeNode "/r" 1) = 1 ∧ levelsOK (createTreeNode "/r" 1) :=
  builder_depth_invariant fsEmpty "/r" 1 (createTreeNode "/r" 1) rfl

/-- C3: the skip test of the builder is exactly the one-character prefix
check (it also covers the dot and dot-dot entries), and any tree the builder
returns from a hidden-free start node only contains child edges whose entry
names do not begin with a dot: no node is ever created for a hidden entry. -/
theorem hidden_entries_never_in_tree (fs : FS) (fuel : Nat) (parent t : TreeNode)
    (hp : hiddenFree parent) (h : treePopulator fs fuel parent = some t) :
    (∀ nm : String, hiddenCheck nm = true ↔ beginsWithDot nm) ∧ hiddenFree t :=
  ⟨hidden_equiv, (treePopulator_inv fs fuel parent t h).2.2.1 hp⟩

/-- Witness for C3 at a concrete filesystem: the root directory lists a
hidden entry and a regular file; the builder returns a tree holding only the
regular file. -/
theorem hidden_entries_never_in_tree_witness :
    (∀ nm : String, hiddenCheck nm = true ↔ beginsWithDot nm) ∧
      hiddenFree (.mk "/r" 1 [.mk "/r/a.txt" 2 []]) :=
  hidden_entries_never_in_tree fsHidden 1 (createTreeNode "/r" 1)
    (.mk "/r" 1 [.mk "/r/a.txt" 2 []])
    (by simp [createTreeNode, hiddenFree, hiddenFreeL]) rfl



/-
  The level linearizer (C1).
-/

theorem sizeL_flatten_children (g : List TreeNode) :
    sizeL ((g.map TreeNode.children).flatten) + g.length = sizeL g := by
  induction g with
  | nil => simp [sizeL]
  | cons x xs ih =>
    cases x with
    | mk nm lv cs =>
      simp only [List.map_cons, List.flatten_cons, sizeL_append, List.length_cons,
        sizeL, TreeNode.size, TreeNode.children]
      omega

theorem cpqLoop_eq_aux :
    ∀ (n : Nat) (climber : TreeNode) (toDo printQ : Queue),
      TreeNode.size climber + sizeL toDo ≤ n →
      cpqLoop climber toDo printQ = printQ ++ bfsQueue (climber :: toDo) := by
  intro n
  induction n with
  | zero =>
    intro climber toDo printQ hle
    exfalso
    cases climber with
    | mk nm lv cs => simp [TreeNode.size] at hle
  | succ n ih =>
    intro climber toDo printQ hle
    rw [cpqLoop]
    split
    · rename_i h
      rcases hq : enQueueList toDo climber.children with _ | ⟨x, xs⟩
      · rw [enQueueList_eq_append] at hq
        obtain ⟨h1, h2⟩ := List.append_eq_nil.mp hq
        subst h1
        rw [bfsQueue, h2]
        simp [bfsQueue, enQueue]
      · rw [hq] at h
        simp [deQueue] at h
    · rename_i next queuePrevField rest h
      have hcons : toDo ++ climber.children = next :: rest := by
        rcases hq : enQueueList toDo climber.children with _ | ⟨x, xs⟩
        · rw [hq] at h
          simp [deQueue] at h
        · rw [hq] at h
          simp only [deQueue, Prod.mk.injEq, QNode.mk.injEq, Option.some.injEq] at h
          rw [enQueueList_eq_append] at hq
          rw [hq, h.1.1, h.2]
      have hsz : TreeNode.size next + sizeL rest ≤ n := by
        have h1 : sizeL (toDo ++ climber.children) = sizeL (next :: rest) := by
          rw [hcons]
        rw [sizeL_append] at h1
        have h2 : sizeL (next :: rest) = TreeNode.size next + sizeL rest := by
          simp [sizeL]
        have h3 : TreeNode.size climber = 1 + sizeL climber.children := by
          cases climber with
          | mk nm lv cs => simp [TreeNode.size, TreeNode.children]
        omega
      have hbfs : bfsQueue (climber :: toDo) = climber :: bfsQueue (next :: rest) := by
        rw [bfsQueue, hcons]
      rw [ih next rest (enQueue printQ climber) hsz, hbfs]
      simp [enQueue]

theorem cpqLoop_eq (climber : TreeNode) (toDo printQ : Queue) :
    cpqLoop climber toDo printQ = printQ ++ bfsQueue (climber :: toDo) :=
  cpqLoop_eq_aux (TreeNode.size climber + sizeL toDo) climber toDo printQ (le_refl _)

theorem bfsQueue_split_aux :
    ∀ (n : Nat) (rest acc : List TreeNode),
      2 * sizeL (rest ++ acc) + (if rest.isEmpty then 1 else 0) ≤ n →
      bfsQueue (rest ++ acc) =
        rest ++ (flevels (acc ++ ((rest.map TreeNode.children).flatten))).flatten := by
  intro n
  induction n with
  | zero =>
    intro rest acc hle
    exfalso
    cases rest with
    | nil =>
      simp at hle
    | cons x xs =>
      cases x with
      | mk nm lv cs =>
        simp [sizeL_append, sizeL, TreeNode.size] at hle
  | succ n ih =>
    intro rest acc hle
    cases rest with
    | nil =>
      cases acc with
      | nil => simp [bfsQueue, flevels]
      | cons t a2 =>
        have hm : 2 * sizeL ((t :: a2) ++ []) + (if (t :: a2).isEmpty then 1 else 0) ≤ n := by
          simp at hle ⊢
          omega
        have h2 := ih (t :: a2) [] hm
        simp only [List.append_nil, List.nil_append] at h2 ⊢
        rw [h2]
        conv_rhs => rw [flevels.eq_def]
        simp
    | cons t rest2 =>
      have hm : 2 * sizeL (rest2 ++ (acc ++ TreeNode.children t)) +
          (if rest2.isEmpty then 1 else 0) ≤ n := by
        have hsz1 : sizeL ((t :: rest2) ++ acc) =
            TreeNode.size t + (sizeL rest2 + sizeL acc) := by
          simp [sizeL_append, sizeL]
          try omega
        have hsz2 : sizeL (rest2 ++ (acc ++ TreeNode.children t)) =
            sizeL rest2 + (sizeL acc + sizeL (TreeNode.children t)) := by
          simp [sizeL_append]
          try omega
        have hsz3 : TreeNode.size t = 1 + sizeL (TreeNode.children t) := by
          cases t with
          | mk nm lv cs => simp [TreeNode.size, TreeNode.children]
        simp only [List.isEmpty_cons, if_neg Bool.false_ne_true] at hle
        rw [hsz1] at hle
        rw [hsz2]
        have hflag : (if rest2.isEmpty then 1 else 0) ≤ 1 := by
          split <;> omega
        omega
      have h2 := ih rest2 (acc ++ TreeNode.children t) hm
      rw [show (t :: rest2) ++ acc = t :: (rest2 ++ acc) from rfl]
      rw [bfsQueue]
      rw [List.append_assoc]
      rw [h2]
      simp [List.append_assoc]

theorem bfsQueue_split (rest acc : List TreeNode) :
    bfsQueue (rest ++ acc) =
      rest ++ (flevels (acc ++ ((rest.map TreeNode.children).flatten))).flatten :=
  bfsQueue_split_aux (2 * sizeL (rest ++ acc) + (if rest.isEmpty then 1 else 0))
    rest acc (le_refl _)

theorem flevels_getD :
    ∀ (d : Nat) (f : List TreeNode),
      (flevels f).getD d [] = ((f.map (nodesAtDepth d)).flatten) := by
  intro d
  induction d with
  | zero =>
    intro f
    cases f with
    | nil => simp [flevels]
    | cons t ts =>
      rw [flevels]
      have hsing : ∀ l : List TreeNode, ((l.map (nodesAtDepth 0)).flatten) = l := by
        intro l
        induction l with
        | nil => simp
        | cons x xs ihl =>
          rw [List.map_cons, List.flatten_cons, ihl]
          simp [nodesAtDepth]
      rw [List.getD_cons_zero, List.map_cons, List.flatten_cons, hsing ts]
      simp [nodesAtDepth]
  | succ d ih =>
    intro f
    cases f with
    | nil => simp [flevels]
    | cons t ts =>
      rw [flevels]
      simp only [List.getD_cons_succ]
      rw [ih]
      have hswap : ∀ (g : List TreeNode),
          ((((g.map TreeNode.children).flatten).map (nodesAtDepth d)).flatten) =
          ((g.map (nodesAtDepth (d + 1))).flatten) := by
        intro g
        induction g with
        | nil => simp
        | cons x xs ihg =>
          simp only [List.map_cons, List.flatten_cons, List.map_append,
            List.flatten_append, ihg]
          simp [nodesAtDepth]
      exact hswap (t :: ts)

theorem allNodesL_children_perm (f : List TreeNode) :
    (allNodesL f).Perm (f ++ allNodesL ((f.map TreeNode.children).flatten)) := by
  induction f with
  | nil => simp [allNodesL]
  | cons t ts ih =>
    cases t with
    | mk nm lv cs =>
      simp only [allNodesL, allNodes, TreeNode.children, List.map_cons, List.flatten_cons,
        List.cons_append, allNodesL_append]
      refine List.Perm.cons _ ?_
      refine ((List.Perm.append_left (allNodesL cs) ih).trans ?_)
      rw [← List.append_assoc, ← List.append_assoc]
      exact List.perm_append_comm.append (List.Perm.refl _)

theorem flevels_flatten_perm_aux :
    ∀ (n : Nat) (f : List TreeNode), sizeL f ≤ n →
      ((flevels f).flatten).Perm (allNodesL f) := by
  intro n
  induction n with
  | zero =>
    intro f hle
    cases f with
    | nil => simp [flevels, allNodesL]
    | cons t ts =>
      exfalso
      cases t with
      | mk nm lv cs => simp [sizeL, TreeNode.size] at hle
  | succ n ih =>
    intro f hle
    cases f with
    | nil => simp [flevels, allNodesL]
    | cons t ts =>
      rw [flevels]
      simp only [List.flatten_cons]
      have hdec : sizeL (((t :: ts).map TreeNode.children).flatten) ≤ n := by
        have hj := sizeL_flatten_children (t :: ts)
        simp only [List.length_cons] at hj
        omega
      have h2 := ih _ hdec
      exact (List.Perm.append_left (t :: ts) h2).trans
        (allNodesL_children_perm (t :: ts)).symm

/-- C1: the level linearization.  For every tree, createPrintQueue visits
every node exactly once (its output is a permutation of the node set), and
the output is exactly the concatenation of the successive depth slices: slice
d holds precisely the depth-d nodes in discovery order, so all nodes of depth
d precede all nodes of depth d+1 and ties follow child-list order. -/
theorem createPrintQueue_level_order (root : TreeNode) :
    (createPrintQueue root).Perm (allNodes root) ∧
    createPrintQueue root = (flevels [root]).flatten ∧
    ∀ d : Nat, (flevels [root]).getD d [] = nodesAtDepth d root := by
  have hq : createPrintQueue root = bfsQueue [root] := by
    rw [createPrintQueue, cpqLoop_eq]
    simp [createQueue]
  have hsplit : bfsQueue [root] = (flevels [root]).flatten := by
    have hb := bfsQueue_split [root] []
    simp only [List.append_nil, List.nil_append, List.map_cons, List.map_nil,
      List.flatten_cons, List.flatten_nil] at hb
    rw [hb, flevels]
    simp
  refine ⟨?_, hq.trans hsplit, ?_⟩
  · rw [hq, hsplit]
    have hp := flevels_flatten_perm_aux (sizeL [root]) [root] (le_refl _)
    refine hp.trans ?_
    simp [allNodesL]
  · intro d
    rw [flevels_getD]
    simp



/-
  The printing phase (C2).
-/

theorem printLoop_eq :
    ∀ (q : Queue) (prev ord : Int),
      q ≠ [] →
      List.Pairwise (fun a b : TreeNode => TreeNode.level a ≤ TreeNode.level b) q →
      (∀ t ∈ q, prev ≤ TreeNode.level t) →
      printLoop q ord prev = some (List.ofFn fun i : Fin q.length =>
        mkLine (TreeNode.level (q.get i))
          (((q.take i).countP
              (fun s => TreeNode.level s == TreeNode.level (q.get i)) : Int)
            + (if TreeNode.level (q.get i) = prev then ord + 1 else 1))
          (TreeNode.fileName (q.get i))) := by
  intro q
  induction q with
  | nil =>
    intro prev ord hne _ _
    exact absurd rfl hne
  | cons t ts ih =>
    intro prev ord hne hsorted hprev
    obtain ⟨hrel, htail⟩ := List.pairwise_cons.mp hsorted
    have hprevt : prev ≤ TreeNode.level t := hprev t (List.mem_cons_self t ts)
    have hord2 : (if (TreeNode.level t != prev) = true then (1 : Int) else ord + 1) =
        (if TreeNode.level t = prev then ord + 1 else 1) := by
      by_cases h : TreeNode.level t = prev <;> simp [h]
    cases ts with
    | nil =>
      have hstep : printLoop [t] ord prev =
          some [mkLine (TreeNode.level t)
            (if (TreeNode.level t != prev) = true then (1 : Int) else ord + 1)
            (TreeNode.fileName t)] := rfl
      rw [hstep, hord2]
      rw [List.ofFn_succ]
      simp [List.ofFn_zero, List.countP_nil]
    | cons u us =>
      have hstep : printLoop (t :: u :: us) ord prev =
          (printLoop (u :: us)
            (if (TreeNode.level t != prev) = true then (1 : Int) else ord + 1)
            (TreeNode.level t)).map
            (fun ls => mkLine (TreeNode.level t)
              (if (TreeNode.level t != prev) = true then (1 : Int) else ord + 1)
              (TreeNode.fileName t) :: ls) := rfl
      rw [hstep, hord2]
      rw [ih (TreeNode.level t)
        (if TreeNode.level t = prev then ord + 1 else 1)
        (List.cons_ne_nil u us) htail hrel]
      rw [Option.map_some']
      congr 1
      conv_rhs => rw [List.ofFn_succ]
      congr 1
      · simp [List.countP_nil]
      · apply congrArg List.ofFn
        funext i
        have hmem : (u :: us).get i ∈ (u :: us) := List.get_mem _ i.1 i.2
        have hle : TreeNode.level t ≤ TreeNode.level ((u :: us).get i) :=
          hrel _ hmem
        simp only [List.get_cons_succ', Fin.val_succ, List.take_succ_cons,
          List.countP_cons]
        by_cases hA : TreeNode.level ((u :: us).get i) = TreeNode.level t
        · have hbeq : (TreeNode.level t == TreeNode.level ((u :: us).get i)) = true :=
            beq_iff_eq.mpr hA.symm
          have hif2 : (if TreeNode.level ((u :: us).get i) = prev then ord + 1 else (1 : Int)) =
              (if TreeNode.level t = prev then ord + 1 else 1) := by
            by_cases hB : TreeNode.level t = prev
            · rw [if_pos (hA.trans hB), if_pos hB]
            · rw [if_neg (fun hc => hB (hA.symm.trans hc)), if_neg hB]
          rw [if_pos hA, hif2, hbeq]
          have hift : (if (true = true) then (1 : Nat) else 0) = 1 := if_pos rfl
          rw [hift]
          refine congrArg (fun z => mkLine (TreeNode.level ((u :: us).get i)) z
            (TreeNode.fileName ((u :: us).get i))) ?_
          generalize (if TreeNode.level t = prev then ord + 1 else (1 : Int)) = X
          push_cast
          omega
        · have hne2 : TreeNode.level ((u :: us).get i) ≠ prev := by
            intro hc
            have hlt : TreeNode.level t < TreeNode.level ((u :: us).get i) :=
              lt_of_le_of_ne hle (fun hx => hA hx.symm)
            omega
          have hbeq : (TreeNode.level t == TreeNode.level ((u :: us).get i)) = false := by
            simp only [beq_eq_false_iff_ne, ne_eq]
            intro hc
            exact hA hc.symm
          rw [if_neg hA, if_neg hne2, hbeq]
          have hiff : (if (false = true) then (1 : Nat) else 0) = 0 := if_neg (by simp)
          rw [hiff]
          refine congrArg (fun z => mkLine (TreeNode.level ((u :: us).get i)) z
            (TreeNode.fileName ((u :: us).get i))) ?_
          push_cast
          omega

/-- C2: the printing phase.  On every nonempty level-ordered print queue with
levels at least 1, printPrintQueue emits exactly one line per queue entry, in
order, each of the form level colon position colon path with a trailing
newline and nothing else; the position of an entry is one more than the
number of earlier entries of the same level, i.e. positions form the
contiguous run 1, 2, ..., k inside each level, resetting at every level
boundary. -/
theorem printPrintQueue_format (q : Queue)
    (hne : q ≠ [])
    (hsorted : List.Pairwise (fun a b : TreeNode => TreeNode.level a ≤ TreeNode.level b) q)
    (hpos : ∀ t ∈ q, 1 ≤ TreeNode.level t) :
    printPrintQueue q = some (List.ofFn fun i : Fin q.length =>
      mkLine (TreeNode.level (q.get i))
        (((q.take i).countP
            (fun s => TreeNode.level s == TreeNode.level (q.get i)) : Int) + 1)
        (TreeNode.fileName (q.get i))) := by
  rw [printPrintQueue,
    printLoop_eq q 0 0 hne hsorted (fun t ht => le_trans (by omega) (hpos t ht))]
  congr 1
  apply congrArg List.ofFn
  funext i
  have h1 : ((0 : Int) + 1) = 1 := by omega
  by_cases hB : TreeNode.level (q.get i) = 0 <;> simp [hB, h1]

/-- Witness for C2 on a concrete three-entry queue: one line per entry, with
positions 1; 1, 2 across the level-2 entries. -/
theorem printPrintQueue_format_witness :
    printPrintQueue demoQueue =
      some ["1:1:/r\n", "2:1:/r/a\n", "2:2:/r/b\n"] := by
  have h := printPrintQueue_format demoQueue
    (by simp [demoQueue])
    (by
      simp only [demoQueue, List.pairwise_cons, List.mem_cons, List.mem_singleton]
      refine ⟨?_, ?_, ?_⟩
      · rintro b (rfl | rfl | hb)
        · simp [TreeNode.level]
        · simp [TreeNode.level]
        · simp at hb
      · rintro b (rfl | hb)
        · simp [TreeNode.level]
        · simp at hb
      · simp)
    (by
      intro t ht
      simp only [demoQueue, List.mem_cons, List.mem_singleton] at ht
      rcases ht with rfl | rfl | rfl | hf
      · simp [TreeNode.level]
      · simp [TreeNode.level]
      · simp [TreeNode.level]
      · simp at hf)
  rw [h]
  rfl


end DirTree
